import Mathlib

/-!
Shallow embedding of the time-series container (`timeseries.py`) and the
deferred computation node (`lazy.py`).  Numeric scalars are modelled as
rationals, so all arithmetic is exact; Python exceptions are modelled with
`Except`.
-/

/-- Errors raised by the container: `shapeMismatch` models the construction-time
assertion failure ("Sequence of times does not match sequences of values."),
`keyNotFound` models the ValueError ("Time (..) not in TimeSeries") raised by
item lookup and item assignment. -/
inductive TSError where
  | shapeMismatch
  | keyNotFound (time : ℚ)
deriving DecidableEq

/-- The error raised by deferred evaluation: the keyword loop in
`LazyOperation.eval` reads the misspelled attribute `self.__kwarg` (the stored
attribute is `self.__kwargs`), which raises AttributeError at run time. -/
inductive EvalError where
  | attributeError
deriving DecidableEq

mutual
/-- Model of `LazyOperation` from `lazy.py`: a function together with the
captured positional arguments and keyword arguments.  The function consumes the
resolved positional values and the resolved keyword values. -/
inductive LazyOp (α : Type) : Type where
  | mk (func : List α → List (String × α) → α)
      (args : List (LazyArg α)) (kwargs : List (String × LazyArg α)) : LazyOp α

/-- A captured argument of a `LazyOp`: either a plain value or a nested
deferred computation node (the source decides with `isinstance(arg, LazyOperation)`). -/
inductive LazyArg (α : Type) : Type where
  | val (a : α) : LazyArg α
  | node (op : LazyOp α) : LazyArg α
end

/-- The positional arguments stored in a node. -/
def LazyOp.argsOf {α : Type} : LazyOp α → List (LazyArg α)
  | .mk _ args _ => args

/-- The keyword arguments stored in a node. -/
def LazyOp.kwargsOf {α : Type} : LazyOp α → List (String × LazyArg α)
  | .mk _ _ kwargs => kwargs

mutual
/-- Model of `LazyOperation.eval`.  It returns the post-state of the node (the
source assigns the resolved argument tuple back to `self.__args` before the
keyword loop) together with the outcome.  A node whose keyword mapping is
non-empty reaches `self.__kwarg[key]`, a read of a misspelled attribute, and so
fails with AttributeError; a failure inside a nested positional node propagates
before `self.__args` is reassigned. -/
def evalOp {α : Type} : LazyOp α → LazyOp α × Except EvalError α
  | .mk f args kwargs =>
    match evalArgs args with
    | .error e => (.mk f args kwargs, .error e)
    | .ok vals =>
      if kwargs.isEmpty then
        (.mk f (vals.map .val) kwargs, .ok (f vals []))
      else
        (.mk f (vals.map .val) kwargs, .error .attributeError)

/-- Resolve the positional arguments left-to-right: an argument that is itself a
node is replaced by the result of its own evaluation, a plain value is kept. -/
def evalArgs {α : Type} : List (LazyArg α) → Except EvalError (List α)
  | [] => .ok []
  | .val a :: rest => (evalArgs rest).map (fun vs => a :: vs)
  | .node n :: rest =>
    match (evalOp n).snd with
    | .error e => .error e
    | .ok v => (evalArgs rest).map (fun vs => v :: vs)
end

/-- Model of `TimeSeries`: positionally paired time and value sequences.  The
construction-time assertion guarantees that the two sequences have equal
length, so the invariant is carried in the structure. -/
structure TimeSeries where
  times : List ℚ
  values : List ℚ
  len_eq : times.length = values.length

/-- Model of `TimeSeries.__init__`: omitted values default to zeros of the same
length as the times; construction fails when the two lengths differ. -/
def TimeSeries.construct (times : List ℚ) (values : Option (List ℚ)) :
    Except TSError TimeSeries :=
  let vals := values.getD (List.replicate times.length 0)
  if h : times.length = vals.length then
    .ok ⟨times, vals, h⟩
  else
    .error .shapeMismatch

/-- Model of `__len__`. -/
def TimeSeries.size (ts : TimeSeries) : ℕ := ts.times.length

/-- Model of the `items` property: the list of (time, value) pairs. -/
def TimeSeries.items (ts : TimeSeries) : List (ℚ × ℚ) := ts.times.zip ts.values

/-- Model of `__eq__`: structural equality of the `items` sequences. -/
def TimeSeries.tsEq (a b : TimeSeries) : Prop := a.items = b.items

/-- Model of `__contains__`. -/
def TimeSeries.containsTime (ts : TimeSeries) (t : ℚ) : Bool :=
  ts.times.contains t

/-- Model of `__getitem__`: `np.where(self._times == time)[0]` lists every index
whose time equals the key, in increasing order, and `index[0]` selects the first
one; an empty index array raises `keyNotFound`. -/
def TimeSeries.getItem (ts : TimeSeries) (t : ℚ) : Except TSError ℚ :=
  match ts.times.findIdx? (fun tm => tm == t) with
  | some i => .ok (ts.values.getD i 0)
  | none => .error (.keyNotFound t)

/-- Model of `__setitem__`: the assignment `self._values[index] = value` writes
through the whole index array `np.where(self._times == time)[0]`, i.e. every
position whose time equals the key receives the new value; an empty index array
raises `keyNotFound`. -/
def TimeSeries.setItem (ts : TimeSeries) (t v : ℚ) : Except TSError TimeSeries :=
  match ts.times.findIdx? (fun tm => tm == t) with
  | some _ =>
    .ok ⟨ts.times, List.zipWith (fun tm x => if tm = t then v else x) ts.times ts.values,
      by rw [List.length_zipWith, ts.len_eq, Nat.min_self]⟩
  | none => .error (.keyNotFound t)

/-- Model of the `lazy` property: `LazyOperation(func, self)` where `func` is
the identity on its single positional argument (the head default is a dummy,
never used, since the node always carries exactly one positional argument). -/
def TimeSeries.lazy (ts : TimeSeries) : LazyOp TimeSeries :=
  LazyOp.mk (fun args _ => args.headD ts) [LazyArg.val ts] []

/-- Model of `np.searchsorted(xs, t, side=right)` on a sorted sequence: the
right-biased insertion point, i.e. the number of elements that are `≤ t`. -/
def searchsortedRight (xs : List ℚ) (t : ℚ) : ℕ :=
  xs.countP (fun x => decide (x ≤ t))

/-- One iteration of the loop in `TimeSeries.interpolate`: the value computed
for a single query time `t` (flat extrapolation at either end, otherwise the
inverted-slope formula of the source). -/
def TimeSeries.interpOne (ts : TimeSeries) (t : ℚ) : ℚ :=
  let ri := searchsortedRight ts.times t
  if ri = ts.times.length then
    ts.values.getD (ts.values.length - 1) 0
  else if ri = 0 then
    ts.values.getD 0 0
  else
    let li := ri - 1
    let time_delta := ts.times.getD ri 0 - ts.times.getD li 0
    let val_delta := ts.values.getD ri 0 - ts.values.getD li 0
    let slope := time_delta / val_delta
    let step := (t - ts.times.getD li 0) / slope
    ts.values.getD li 0 + step

/-- Model of `TimeSeries.interpolate`: a new container keyed by the query
times, holding the interpolated values. -/
def TimeSeries.interpolate (ts : TimeSeries) (qtimes : List ℚ) : TimeSeries :=
  ⟨qtimes, qtimes.map ts.interpOne, by rw [List.length_map]⟩

/-- The documented inverted-slope interpolation step of the source:
`slope = time_delta / value_delta`, `step = (t - times[left]) / slope`, result
`values[left] + step`. -/
def invertedSlopeFormula (vl td vd t tl : ℚ) : ℚ :=
  vl + (t - tl) / (td / vd)

/-- The conventional linear interpolation formula named by the spec:
`values[left] + (t - times[left]) * value_delta / time_delta`. -/
def conventionalFormula (vl td vd t tl : ℚ) : ℚ :=
  vl + (t - tl) * vd / td

/-! ### Helper lemmas -/

lemma getD_in_range {l : List ℚ} {i : ℕ} (h : i < l.length) : l.getD i 0 = l[i] := by
  rw [List.getD_eq_getElem?_getD, List.getElem?_eq_getElem h, Option.getD_some]

lemma getD_last {l : List ℚ} (h : l ≠ []) :
    l.getD (l.length - 1) 0 = l.getLast h := by
  rw [List.getLast_eq_getElem, getD_in_range (Nat.sub_lt (List.length_pos.2 h) Nat.one_pos)]

lemma getD_zero_head {l : List ℚ} (h : l ≠ []) : l.getD 0 0 = l.head h := by
  cases l with
  | nil => exact absurd rfl h
  | cons x xs => rfl

lemma le_getLast_of_sorted {l : List ℚ} (hs : l.Sorted (· ≤ ·)) (h : l ≠ []) :
    ∀ a ∈ l, a ≤ l.getLast h := by
  induction l with
  | nil => exact absurd rfl h
  | cons x xs ih =>
    intro a ha
    cases xs with
    | nil =>
      simp only [List.mem_singleton] at ha
      subst ha
      simp [List.getLast]
    | cons y ys =>
      rw [List.getLast_cons (List.cons_ne_nil y ys)]
      rcases List.mem_cons.1 ha with rfl | hmem
      · exact List.rel_of_sorted_cons hs _ (List.getLast_mem _)
      · exact ih hs.of_cons (List.cons_ne_nil y ys) _ hmem

lemma head_le_of_sorted {l : List ℚ} (hs : l.Sorted (· ≤ ·)) (h : l ≠ []) :
    ∀ a ∈ l, l.head h ≤ a := by
  cases l with
  | nil => exact absurd rfl h
  | cons x xs =>
    intro a ha
    rcases List.mem_cons.1 ha with rfl | hmem
    · simp
    · simpa using List.rel_of_sorted_cons hs _ hmem

lemma evalArgs_map_val {α : Type} (vs : List α) :
    evalArgs (vs.map LazyArg.val) = .ok vs := by
  induction vs with
  | nil => rfl
  | cons x xs ih => simp [evalArgs, ih, Except.map]

lemma zipWith_mask_getD (t v : ℚ) :
    ∀ (tms vs : List ℚ) (i : ℕ), i < tms.length → tms.length = vs.length →
      (List.zipWith (fun tm x => if tm = t then v else x) tms vs).getD i 0 =
        if tms.getD i 0 = t then v else vs.getD i 0 := by
  intro tms
  induction tms with
  | nil => intro vs i h; exact absurd h (by simp)
  | cons x xs ih =>
    intro vs i h hlen
    cases vs with
    | nil => simp at hlen
    | cons y ys =>
      cases i with
      | zero => simp
      | succ n =>
        simp only [List.zipWith_cons_cons, List.getD_cons_succ]
        exact ih ys n (by simpa using h) (by simpa using hlen)

/-! ### Example containers and nodes used in concrete statements -/

/-- The container of the spec's interpolation scenarios. -/
def exA : TimeSeries := ⟨[0, 5, 10], [1, 2, 3], rfl⟩

/-- A container whose interior segment has `value_delta / time_delta = 1/10`. -/
def exB : TimeSeries := ⟨[0, 10], [0, 1], rfl⟩

/-- A constant function usable as a node's `func`. -/
def constFn : List ℚ → List (String × ℚ) → ℚ := fun _ _ => 0

/-- A node whose keyword mapping is non-empty. -/
def kwNode : LazyOp ℚ := .mk constFn [] [("k", .val 1)]

/-- A function adding one to its first positional argument. -/
def addFn : List ℚ → List (String × ℚ) → ℚ := fun args _ => (args.headD 0) + 1

/-- A nested node returning `41`. -/
def innerNode : LazyOp ℚ := .mk (fun _ _ => 41) [] []

/-- A node whose single positional argument is itself a node. -/
def outerNode : LazyOp ℚ := .mk addFn [.node innerNode] []

/-! ### Claims -/

/-- C1, counterexample: at stored times `[0, 10]`, values `[0, 1]` and interior
query time `5` (insertion point `1`, `value_delta = 1 ≠ 0`, ratio
`value_delta / time_delta = 1/10 ≠ 1`) the inverted-slope formula of the code
produces exactly the conventional linear interpolation value, refuting the
claimed numeric difference. -/
theorem invertedSlope_agrees_at_ratio_ne_one :
    exB.interpOne 5 = conventionalFormula 0 10 1 5 0 ∧
    invertedSlopeFormula 0 10 1 5 0 = conventionalFormula 0 10 1 5 0 ∧
    ((1 : ℚ) / 10) ≠ 1 := by
  refine ⟨?_, ?_, by norm_num⟩
  · norm_num [exB, TimeSeries.interpOne, searchsortedRight, List.countP, List.countP.go,
      conventionalFormula]
  · norm_num [invertedSlopeFormula, conventionalFormula]

/-- C1, amended: for every interior query (insertion point strictly between `0`
and the sample count) the inverted-slope formula computed by `interpOne` yields
exactly the conventional linear interpolation value
`values[left] + (t - times[left]) * value_delta / time_delta`: the two
inversions cancel, so the numeric results never differ in exact arithmetic. -/
theorem interpOne_eq_conventional (ts : TimeSeries) (t : ℚ)
    (h0 : searchsortedRight ts.times t ≠ 0)
    (hn : searchsortedRight ts.times t ≠ ts.times.length) :
    ts.interpOne t =
      conventionalFormula (ts.values.getD (searchsortedRight ts.times t - 1) 0)
        (ts.times.getD (searchsortedRight ts.times t) 0 -
          ts.times.getD (searchsortedRight ts.times t - 1) 0)
        (ts.values.getD (searchsortedRight ts.times t) 0 -
          ts.values.getD (searchsortedRight ts.times t - 1) 0)
        t (ts.times.getD (searchsortedRight ts.times t - 1) 0) := by
  rw [TimeSeries.interpOne, conventionalFormula]
  simp only [if_neg hn, if_neg h0]
  rw [div_div_eq_mul_div]

/-- C1, witness for the amended theorem at `exB` and query time `5`. -/
theorem interpOne_eq_conventional_witness :
    exB.interpOne 5 =
      conventionalFormula (exB.values.getD (searchsortedRight exB.times 5 - 1) 0)
        (exB.times.getD (searchsortedRight exB.times 5) 0 -
          exB.times.getD (searchsortedRight exB.times 5 - 1) 0)
        (exB.values.getD (searchsortedRight exB.times 5) 0 -
          exB.values.getD (searchsortedRight exB.times 5 - 1) 0)
        5 (exB.times.getD (searchsortedRight exB.times 5 - 1) 0) :=
  interpOne_eq_conventional exB 5 (by decide) (by decide)

/-- C2: interpolating the container with times `[0, 5, 10]` and values
`[1, 2, 3]` at the single query time `1` produces the container with times `[1]`
and the single value `1.2`. -/
theorem interpolate_example_at_one :
    (exA.interpolate [1]).times = [1] ∧ (exA.interpolate [1]).values = [(1.2 : ℚ)] := by
  constructor
  · rfl
  · norm_num [exA, TimeSeries.interpolate, TimeSeries.interpOne, searchsortedRight,
      List.countP, List.countP.go]

/-- C9: the lazy view of a container is a deferred node whose single positional
argument is the container itself, and evaluating it yields a container equal to
the original under the container's structural (items) equality. -/
theorem lazy_view_roundtrip (ts : TimeSeries) :
    ts.lazy.argsOf = [LazyArg.val ts] ∧
    ∃ r, (evalOp ts.lazy).snd = .ok r ∧ r.tsEq ts := by
  refine ⟨rfl, ts, ?_, rfl⟩
  simp [evalOp, evalArgs, TimeSeries.lazy, Except.map]


/-- C3: on a non-empty container with sorted stored times, a query time at or
beyond the last stored time (right-biased insertion point equal to the sample
count) interpolates to the last stored value, and a query time before the first
stored time (insertion point `0`) interpolates to the first stored value. -/
theorem interpolate_flat_extrapolation (ts : TimeSeries) (t : ℚ)
    (hs : ts.times.Sorted (· ≤ ·)) (hne : ts.times ≠ []) (hv : ts.values ≠ []) :
    (ts.times.getLast hne ≤ t →
      (ts.interpolate [t]).items = [(t, ts.values.getLast hv)]) ∧
    (t < ts.times.head hne →
      (ts.interpolate [t]).items = [(t, ts.values.head hv)]) := by
  have hitems : (ts.interpolate [t]).items = [(t, ts.interpOne t)] := rfl
  constructor
  · intro hlast
    rw [hitems]
    have hall : searchsortedRight ts.times t = ts.times.length := by
      apply List.countP_eq_length.2
      intro a ha
      simp only [decide_eq_true_eq]
      exact le_trans (le_getLast_of_sorted hs hne a ha) hlast
    rw [TimeSeries.interpOne]
    simp only [hall, if_true]
    rw [getD_last hv]
  · intro hhead
    rw [hitems]
    have hzero : searchsortedRight ts.times t = 0 := by
      apply List.countP_eq_zero.2
      intro a ha
      simp only [decide_eq_true_eq]
      intro hle
      exact absurd (le_trans (head_le_of_sorted hs hne a ha) hle) (not_le.2 hhead)
    have hlen : ts.times.length ≠ 0 := fun h => hne (List.length_eq_zero.1 h)
    rw [TimeSeries.interpOne]
    simp only [hzero]
    rw [if_neg (fun h => hlen h.symm)]
    simp only [if_true]
    rw [getD_zero_head hv]

/-- C3, witness: the container with times `[0, 5, 10]` and values `[1, 2, 3]`
clamps the out-of-range query times `100` and `-100` to the values `3` and `1`. -/
theorem interpolate_flat_extrapolation_witness :
    ((exA.interpolate [100]).items = [(100, exA.values.getLast (by decide))]) ∧
    ((exA.interpolate [-100]).items = [(-100, exA.values.head (by decide))]) :=
  ⟨(interpolate_flat_extrapolation exA 100 (by decide) (by decide) (by decide)).1 (by decide),
   (interpolate_flat_extrapolation exA (-100) (by decide) (by decide) (by decide)).2 (by decide)⟩

/-- C4: the claim says Evaluate succeeds and returns the function's result for
every node whose named-argument mapping is non-empty; the code instead raises
AttributeError there, because the keyword loop reads the misspelled attribute
`self.__kwarg` instead of `self.__kwargs`.  Evaluating the model at a node with
one keyword argument exhibits the failure. -/
theorem eval_fails_on_nonempty_kwargs :
    (evalOp kwNode).snd = .error .attributeError := by
  simp [evalOp, evalArgs, kwNode]

/-- C5, counterexample: evaluating a node whose single positional argument is
itself a node replaces that stored argument with the computed value, so the
stored positional arguments are not the same after Evaluate as before it. -/
theorem eval_mutates_stored_args :
    (evalOp outerNode).fst.argsOf ≠ outerNode.argsOf := by
  simp [evalOp, evalArgs, outerNode, innerNode, addFn, LazyOp.argsOf, Except.map]

/-- C5, amended: Evaluate does mutate the node: the named-argument mapping is
left unchanged, but when resolution of the positional arguments succeeds each
stored positional argument is replaced by its resolved value; consequently,
after a successful Evaluate a second call returns the same result from the
already-resolved arguments instead of re-evaluating nested nodes. -/
theorem eval_mutation_spec {α : Type} (op : LazyOp α) :
    (evalOp op).fst.kwargsOf = op.kwargsOf ∧
    (∀ vals, evalArgs op.argsOf = .ok vals →
      (evalOp op).fst.argsOf = vals.map LazyArg.val) ∧
    (∀ v, (evalOp op).snd = .ok v →
      evalOp (evalOp op).fst = ((evalOp op).fst, .ok v)) := by
  cases op with
  | mk f args kwargs =>
    rcases h : evalArgs args with e | vals
    · refine ⟨by simp [evalOp, h, LazyOp.kwargsOf], ?_, ?_⟩
      · intro vals hv
        rw [LazyOp.argsOf, h] at hv
        cases hv
      · intro v hv
        simp [evalOp, h] at hv
    · cases kwargs with
      | nil =>
        refine ⟨by simp [evalOp, h, LazyOp.kwargsOf], ?_, ?_⟩
        · intro vals2 hv
          rw [LazyOp.argsOf, h] at hv
          injection hv with hv
          subst hv
          simp [evalOp, h, LazyOp.argsOf]
        · intro v hv
          have hsnd : (evalOp (LazyOp.mk f args [])).snd = .ok (f vals []) := by
            simp [evalOp, h]
          rw [hsnd] at hv
          injection hv with hv
          have hfst : (evalOp (LazyOp.mk f args [])).fst =
              LazyOp.mk f (vals.map LazyArg.val) [] := by
            simp [evalOp, h]
          rw [hfst]
          simp [evalOp, evalArgs_map_val, hv]
      | cons kv ks =>
        refine ⟨by simp [evalOp, h, LazyOp.kwargsOf], ?_, ?_⟩
        · intro vals2 hv
          rw [LazyOp.argsOf, h] at hv
          injection hv with hv
          subst hv
          simp [evalOp, h, LazyOp.argsOf]
        · intro v hv
          simp [evalOp, h] at hv

/-- C5, witness for the amended theorem at a node holding one nested node: the
keyword mapping is unchanged, the stored argument becomes the resolved value
`41`, and a second evaluation returns the same result `42` from the mutated
node. -/
theorem eval_mutation_spec_witness :
    (evalOp outerNode).fst.kwargsOf = outerNode.kwargsOf ∧
    (evalOp outerNode).fst.argsOf = [(41 : ℚ)].map LazyArg.val ∧
    evalOp (evalOp outerNode).fst = ((evalOp outerNode).fst, .ok 42) :=
  ⟨(eval_mutation_spec outerNode).1,
   (eval_mutation_spec outerNode).2.1 [41]
     (by simp [outerNode, LazyOp.argsOf, evalArgs, evalOp, innerNode, Except.map]),
   (eval_mutation_spec outerNode).2.2 42
     (by simp [outerNode, evalOp, evalArgs, innerNode, addFn, Except.map]; norm_num)⟩

/-- If no stored time equals the key, the first-index search comes up empty. -/
lemma findIdx_none_of_no_match {l : List ℚ} {t : ℚ} (h : l.contains t = false) :
    l.findIdx? (fun tm => tm == t) = none := by
  rw [List.findIdx?_eq_none_iff]
  intro x hx
  simp only [beq_eq_false_iff_ne, ne_eq]
  rintro rfl
  have hcx : l.contains x = true := by
    rw [List.contains_iff_exists_mem_beq]
    exact ⟨x, hx, by simp⟩
  rw [hcx] at h
  cases h

/-- A container whose stored times contain the key `1` at two positions. -/
def dupTS : TimeSeries := ⟨[0, 1, 1], [5, 6, 7], rfl⟩

/-- C6: on a container whose stored times contain the query key at more than one
position, Get returns the value paired with the first matching position, while
Set overwrites the values at all matching positions (and no others). -/
theorem get_first_set_all (ts : TimeSeries) (t v : ℚ) (i0 : ℕ)
    (_hdup : 1 < ts.times.countP (fun x => decide (x = t)))
    (hi0 : i0 < ts.times.length) (hmatch : ts.times.getD i0 0 = t)
    (hfirst : ∀ j, j < i0 → ts.times.getD j 0 ≠ t) :
    ts.getItem t = .ok (ts.values.getD i0 0) ∧
    ∃ ts', ts.setItem t v = .ok ts' ∧ ts'.times = ts.times ∧
      ∀ i, i < ts.times.length →
        ts'.values.getD i 0 = if ts.times.getD i 0 = t then v else ts.values.getD i 0 := by
  have hfind : ts.times.findIdx? (fun tm => tm == t) = some i0 := by
    rw [List.findIdx?_eq_some_iff_getElem]
    refine ⟨hi0, ?_, ?_⟩
    · simp only [beq_iff_eq]
      rw [← getD_in_range hi0]
      exact hmatch
    · intro j hj
      simp only [beq_iff_eq]
      rw [← getD_in_range (lt_trans hj hi0)]
      exact hfirst j hj
  refine ⟨?_, ?_⟩
  · simp only [TimeSeries.getItem, hfind]
  · simp only [TimeSeries.setItem, hfind]
    refine ⟨_, rfl, rfl, ?_⟩
    intro i hi
    exact zipWith_mask_getD t v ts.times ts.values i hi ts.len_eq

/-- C6, witness: on times `[0, 1, 1]` and values `[5, 6, 7]`, Get at key `1`
reads position `1` and Set at key `1` overwrites positions `1` and `2`. -/
theorem get_first_set_all_witness :
    dupTS.getItem 1 = .ok (dupTS.values.getD 1 0) ∧
    ∃ ts', dupTS.setItem 1 9 = .ok ts' ∧ ts'.times = dupTS.times ∧
      ∀ i, i < dupTS.times.length →
        ts'.values.getD i 0 = if dupTS.times.getD i 0 = 1 then 9 else dupTS.values.getD i 0 :=
  get_first_set_all dupTS 1 9 1 (by decide) (by decide) (by decide)
    (fun j hj => by
      have hj0 : j = 0 := Nat.lt_one_iff.1 hj
      subst hj0
      decide)

/-- C7: construction from sequences of differing lengths fails with
`shapeMismatch`; for equal lengths it succeeds and stores both sequences
positionally paired. -/
theorem construct_shape (times vals : List ℚ) :
    (times.length ≠ vals.length →
      TimeSeries.construct times (some vals) = .error .shapeMismatch) ∧
    (times.length = vals.length →
      ∃ ts, TimeSeries.construct times (some vals) = .ok ts ∧
        ts.times = times ∧ ts.values = vals) := by
  constructor
  · intro h
    simp only [TimeSeries.construct, Option.getD_some]
    rw [dif_neg h]
  · intro h
    simp only [TimeSeries.construct, Option.getD_some]
    rw [dif_pos h]
    exact ⟨⟨times, vals, h⟩, rfl, rfl, rfl⟩

/-- C7, witness: constructing from `[0, 1]` and `[2]` fails; from `[0, 1]` and
`[2, 3]` it succeeds and stores both sequences. -/
theorem construct_shape_witness :
    TimeSeries.construct [0, 1] (some [2]) = .error .shapeMismatch ∧
    ∃ ts, TimeSeries.construct [0, 1] (some [2, 3]) = .ok ts ∧
      ts.times = [0, 1] ∧ ts.values = [2, 3] :=
  ⟨(construct_shape [0, 1] [2]).1 (by decide),
   (construct_shape [0, 1] [2, 3]).2 (by decide)⟩

/-- A two-sample container used for the Get/Set error-path witnesses. -/
def ex8 : TimeSeries := ⟨[3, 4], [7, 8], rfl⟩

/-- C8: when no stored time equals the query, Get and Set both fail with
`keyNotFound`; when at least one stored time matches, Get returns the paired
value and Set succeeds. -/
theorem get_set_key_spec (ts : TimeSeries) (t v : ℚ) :
    (ts.containsTime t = false →
      ts.getItem t = .error (.keyNotFound t) ∧
      ts.setItem t v = .error (.keyNotFound t)) ∧
    (ts.containsTime t = true →
      (∃ i, ts.times[i]? = some t ∧ ts.getItem t = .ok (ts.values.getD i 0)) ∧
      ∃ ts', ts.setItem t v = .ok ts') := by
  constructor
  · intro hc
    have hnone := findIdx_none_of_no_match (t := t) (l := ts.times) hc
    constructor
    · simp only [TimeSeries.getItem, hnone]
    · simp only [TimeSeries.setItem, hnone]
  · intro hc
    have ht : t ∈ ts.times := by
      rw [TimeSeries.containsTime, List.contains_iff_exists_mem_beq] at hc
      obtain ⟨x, hx, hbeq⟩ := hc
      rw [beq_iff_eq] at hbeq
      subst hbeq
      exact hx
    have hsome := List.findIdx?_eq_some_of_exists
      (p := fun tm => tm == t) ⟨t, ht, by simp⟩
    obtain ⟨hi, hpi, hfirstp⟩ := List.findIdx?_eq_some_iff_getElem.1 hsome
    refine ⟨⟨ts.times.findIdx (fun tm => tm == t), ?_, ?_⟩, ?_⟩
    · rw [List.getElem?_eq_getElem hi]
      simp only [beq_iff_eq] at hpi
      rw [hpi]
    · simp only [TimeSeries.getItem, hsome]
    · have hset : ts.setItem t v = .ok ⟨ts.times,
          List.zipWith (fun tm x => if tm = t then v else x) ts.times ts.values,
          by rw [List.length_zipWith, ts.len_eq, Nat.min_self]⟩ := by
        rw [TimeSeries.setItem, hsome]
      exact ⟨_, hset⟩

/-- C8, witness: on times `[3, 4]`, the absent key `5` makes Get and Set fail,
and the present key `4` makes Get return the paired value and Set succeed. -/
theorem get_set_key_spec_witness :
    (ex8.getItem 5 = .error (.keyNotFound 5) ∧ ex8.setItem 5 1 = .error (.keyNotFound 5)) ∧
    ((∃ i, ex8.times[i]? = some 4 ∧ ex8.getItem 4 = .ok (ex8.values.getD i 0)) ∧
      ∃ ts', ex8.setItem 4 1 = .ok ts') :=
  ⟨(get_set_key_spec ex8 5 1).1 (by decide),
   (get_set_key_spec ex8 4 1).2 (by decide)⟩

/-- The container `dupTS` after Set at key `1` with value `9`. -/
def dupPost : TimeSeries := ⟨[0, 1, 1], [5, 9, 9], rfl⟩

/-- C10: Set mutates only the values at positions whose stored time equals the
key: the times sequence is unchanged, every value at a non-matching position is
unchanged, and when no stored time matches the call fails with `keyNotFound`
without producing a modified container. -/
theorem set_frame (ts : TimeSeries) (t v : ℚ) :
    (∀ ts', ts.setItem t v = .ok ts' → ts'.times = ts.times ∧
      ∀ i, i < ts.values.length → ts.times.getD i 0 ≠ t →
        ts'.values.getD i 0 = ts.values.getD i 0) ∧
    (ts.containsTime t = false → ts.setItem t v = .error (.keyNotFound t)) := by
  constructor
  · intro ts' hset
    rcases hfind : ts.times.findIdx? (fun tm => tm == t) with _ | i
    · rw [TimeSeries.setItem, hfind] at hset
      cases hset
    · rw [TimeSeries.setItem, hfind] at hset
      injection hset with hset
      subst hset
      refine ⟨rfl, ?_⟩
      intro i hi hne
      have hmask := zipWith_mask_getD t v ts.times ts.values i
        (by rw [ts.len_eq]; exact hi) ts.len_eq
      calc (List.zipWith (fun tm x => if tm = t then v else x) ts.times ts.values).getD i 0
          = if ts.times.getD i 0 = t then v else ts.values.getD i 0 := hmask
        _ = ts.values.getD i 0 := if_neg hne
  · intro hc
    have hnone := findIdx_none_of_no_match (t := t) (l := ts.times) hc
    simp only [TimeSeries.setItem, hnone]

/-- C10, witness: setting key `1` on `dupTS` keeps the times and the value at
the non-matching position `0`; setting the absent key `2` fails. -/
theorem set_frame_witness :
    (dupPost.times = dupTS.times ∧
      ∀ i, i < dupTS.values.length → dupTS.times.getD i 0 ≠ 1 →
        dupPost.values.getD i 0 = dupTS.values.getD i 0) ∧
    dupTS.setItem 2 9 = .error (.keyNotFound 2) :=
  ⟨(set_frame dupTS 1 9).1 dupPost (by rfl),
   (set_frame dupTS 2 9).2 (by decide)⟩
